import Mathlib

/-
Verification development for a marketplace demand-forecast / replenishment
repository (Python).  Each Python function relevant to the checked claims is
shallow-embedded as an executable Lean definition over exact arithmetic (ℚ),
and the claims are settled as theorems about those definitions.

Conventions of the embedding:
  * pandas DataFrames become lists of structures, one structure field per column;
  * Python dicts become insertion-ordered association lists (last-write-wins
    update preserves the position of an existing key, like a CPython dict);
  * IEEE floats become ℚ extended with plus/minus infinity where the code
    manufactures infinities (ERat below); NaN never arises in the modelled paths;
  * np.sqrt has no exact counterpart in ℚ, so the stored rmse field carries the
    mean squared error (the square of the Python value).  Every use of rmse in
    the claims is an order comparison, and squaring is strictly monotone on the
    nonnegative reals, so minimisers and comparisons are unaffected.
-/

/-- Extended rationals: ℚ together with a top element (np.inf) and a bottom
element (-np.inf), with the induced linear order. -/
abbrev ERat : Type := WithBot (WithTop ℚ)

/-- Embeds a finite float value. -/
def ERat.ofRat (q : ℚ) : ERat := ((q : WithTop ℚ) : WithBot (WithTop ℚ))

/-- Distinguishes finite values (np.isfinite): returns the underlying rational
for a finite value and none for either infinity. -/
def ERat.toFinite? (x : ERat) : Option ℚ :=
  if x = ⊥ then none
  else if x = ((⊤ : WithTop ℚ) : WithBot (WithTop ℚ)) then none
  else some ((x.unbot' 0).untop' 0)

/-- Result row of ModelEvaluator.evaluate_model as stored in
evaluation_results: the four metrics plus the identifying names.
(rmse carries the squared value, see the header comment.) -/
structure EvalResult where
  mae : ERat
  rmse : ERat
  mape : ERat
  r2 : ERat
  model_name : String
  unified_code : String
deriving DecidableEq

/-- Bare metric quadruple, the shape returned by the early exits of
evaluate_model (those return dicts carry no name fields). -/
structure Metrics where
  mae : ERat
  rmse : ERat
  mape : ERat
  r2 : ERat
deriving DecidableEq

/-- View of a stored result as its metric quadruple. -/
def EvalResult.toMetrics (r : EvalResult) : Metrics :=
  ⟨r.mae, r.rmse, r.mape, r.r2⟩

/-- Worst-case sentinel metrics: mae = rmse = mape = +inf, r2 = -inf. -/
def sentinelMetrics : Metrics :=
  ⟨((⊤ : WithTop ℚ) : WithBot (WithTop ℚ)),
   ((⊤ : WithTop ℚ) : WithBot (WithTop ℚ)),
   ((⊤ : WithTop ℚ) : WithBot (WithTop ℚ)), ⊥⟩

/-- The evaluator's evaluation_results dict: insertion-ordered association
list keyed by the string unified_code plus underscore plus model_name. -/
abbrev EvalStore : Type := List (String × EvalResult)

/-- Dict lookup (first matching key; keys built by storeUpdate are unique). -/
def storeLookup : EvalStore → String → Option EvalResult
  | [], _ => none
  | (k, v) :: rest, key => if k = key then some v else storeLookup rest key

/-- Dict assignment: overwrite in place when the key exists (keeping its
position, as a CPython dict does), otherwise append. -/
def storeUpdate : EvalStore → String → EvalResult → EvalStore
  | [], key, v => [(key, v)]
  | (k, w) :: rest, key, v =>
      if k = key then (key, v) :: rest else (k, w) :: storeUpdate rest key v

/-- Valid comparison points of evaluate_model: the two sequences are zipped
(which also performs the truncation of both to their common length) and a
point survives exactly when both values are finite and the actual value is
strictly positive (the mask np.isfinite and np.isfinite and y_true gt 0). -/
def validPairs (y_true y_pred : List ERat) : List (ℚ × ℚ) :=
  (y_true.zip y_pred).filterMap (fun tp =>
    match tp.1.toFinite?, tp.2.toFinite? with
    | some tq, some pq => if 0 < tq then some (tq, pq) else none
    | _, _ => none)

/-- Mean of a list of rationals (the list is nonempty wherever this is used). -/
def listMean (l : List ℚ) : ℚ := l.sum / (l.length : ℚ)

/-- Metrics of evaluate_model on the surviving points: mean absolute error,
mean squared error (standing in for its square root, see header), mean
absolute percentage error, and r2 with the zero-variance guard. -/
def computeResult (pairs : List (ℚ × ℚ)) (model_name unified_code : String) :
    EvalResult :=
  let n : ℚ := (pairs.length : ℚ)
  let mae := (pairs.map (fun tp => |tp.1 - tp.2|)).sum / n
  let msq := (pairs.map (fun tp => (tp.1 - tp.2) ^ 2)).sum / n
  let mape := ((pairs.map (fun tp => |(tp.1 - tp.2) / tp.1|)).sum / n) * 100
  let mu := listMean (pairs.map (·.1))
  let ss_res := (pairs.map (fun tp => (tp.1 - tp.2) ^ 2)).sum
  let ss_tot := (pairs.map (fun tp => (tp.1 - mu) ^ 2)).sum
  let r2 : ERat :=
    if 0 < ss_tot then ERat.ofRat (1 - ss_res / ss_tot) else ⊥
  ⟨ERat.ofRat mae, ERat.ofRat msq, ERat.ofRat mape, r2, model_name, unified_code⟩

/-- ModelEvaluator.evaluate_model.  Returns the metric quadruple of the Python
return dict together with the updated store.  The two early exits (empty
input, or no surviving points) return the sentinels and do not touch the
store; only the full path stores its result under the concatenated key. -/
def evaluateModel (store : EvalStore) (y_true y_pred : List ERat)
    (model_name unified_code : String) : Metrics × EvalStore :=
  if y_true.length = 0 ∨ y_pred.length = 0 then (sentinelMetrics, store)
  else
    let pairs := validPairs y_true y_pred
    if pairs.length = 0 then (sentinelMetrics, store)
    else
      let res := computeResult pairs model_name unified_code
      (res.toMetrics,
       storeUpdate store (unified_code ++ "_" ++ model_name) res)

/-- Metric access of select_best_model: result.get(metric, default). -/
def getMetricOr (r : EvalResult) (metric : String) (d : ERat) : ERat :=
  if metric = "mae" then r.mae
  else if metric = "rmse" then r.rmse
  else if metric = "mape" then r.mape
  else if metric = "r2" then r.r2
  else d

/-- Value of one of the four named metrics (both defaults of getMetricOr
agree with this on the four metric names actually used). -/
def metricOf (r : EvalResult) (metric : String) : ERat :=
  if metric = "mae" then r.mae
  else if metric = "rmse" then r.rmse
  else if metric = "mape" then r.mape
  else r.r2

/-- Python builtin min with a key function over a nonempty sequence: scans
left to right and keeps the incumbent unless the challenger is strictly
smaller, so the first minimiser wins. -/
def minBy (f : String × EvalResult → ERat) (a : String × EvalResult)
    (l : List (String × EvalResult)) : String × EvalResult :=
  l.foldl (fun best x => if f x < f best then x else best) a

/-- Python builtin max with a key function over a nonempty sequence: keeps the
incumbent unless the challenger is strictly greater. -/
def maxBy (f : String × EvalResult → ERat) (a : String × EvalResult)
    (l : List (String × EvalResult)) : String × EvalResult :=
  l.foldl (fun best x => if f best < f x then x else best) a

/-- ModelEvaluator.select_best_model: filter the store to keys starting with
the product key plus underscore, return none when nothing matches, otherwise
minimise (for mae, rmse, mape) or maximise (otherwise) the metric value and
return the winning entry's model name. -/
def selectBestModel (store : EvalStore) (unified_code metric : String) :
    Option String :=
  let product_results := store.filter
    (fun e => (unified_code ++ "_").data.isPrefixOf e.1.data)
  match product_results with
  | [] => none
  | e :: rest =>
      let best :=
        if metric = "mae" ∨ metric = "rmse" ∨ metric = "mape" then
          minBy (fun x => getMetricOr x.2 metric
            ((⊤ : WithTop ℚ) : WithBot (WithTop ℚ))) e rest
        else
          maxBy (fun x => getMetricOr x.2 metric ⊥) e rest
      some best.2.model_name

/-
Constraint engine (constraints.py).  DataFrames become lists of row
structures; the withdraw and defecture lists are reduced to what the code
reads from them (the unified_code column, and for defecture also end_date).
-/

/-- One stock record row: columns date, warehouse, unified_code, stock. -/
structure StockRow where
  date : Int
  warehouse : String
  unified_code : String
  stock : ℚ
deriving DecidableEq

/-- One forecast row as seen by the constraint passes:
columns date, unified_code, quantity. -/
structure CFRow where
  date : Int
  unified_code : String
  quantity : ℚ
deriving DecidableEq

/-- One shipment row as seen by the constraint passes: the columns produced
by the shipment calculator plus the boxes column added by box rounding
(absent, hence none, until that pass runs). -/
structure CShipRow where
  date : Int
  warehouse : String
  unified_code : String
  forecasted_sales : ℚ
  current_stock : ℚ
  required_stock : ℚ
  shipment : ℚ
  boxes : Option ℚ
deriving DecidableEq

/-- Rows of the most recent stock snapshot: keep exactly the rows whose date
equals the maximum date present (empty input yields empty).  Used by both
Constraints.get_latest_stocks and the identical inline code of
ShipmentCalculator.calculate_shipments. -/
def latestStockRows : List StockRow → List StockRow
  | [] => []
  | s :: rest =>
      let m := rest.foldl (fun a r => max a r.date) s.date
      (s :: rest).filter (fun r => decide (r.date = m))

/-- Constraints.get_latest_stocks followed by the dict .get(code, 0) read:
total latest stock of one product (groupby unified_code sum; a product
absent from the snapshot totals 0, matching the .get default). -/
def latestStockFor (stocks : List StockRow) (unified_code : String) : ℚ :=
  (((latestStockRows stocks).filter
      (fun r => decide (r.unified_code = unified_code))).map (·.stock)).sum

/-- One defecture list row: unified_code and the optional end_date column
(a missing column makes row.get fall back to Timestamp.max, modelled as
none, which no forecast date exceeds). -/
structure DefectureRow where
  unified_code : String
  end_date : Option Int
deriving DecidableEq

/-- Whether a forecast date is strictly past a defecture entry's end date. -/
def pastEnd (e : DefectureRow) (d : Int) : Bool :=
  match e.end_date with
  | some t => decide (t < d)
  | none => false

/-- Whether any forecast row carries the given product code. -/
def hasCode (forecast : List CFRow) (c : String) : Bool :=
  forecast.any (fun r => r.unified_code == c)

/-- Whether the forecast has a row for the entry's product dated strictly
past the entry's end date (the future_dates selection of the code). -/
def hasFuture (forecast : List CFRow) (e : DefectureRow) : Bool :=
  forecast.any (fun r => r.unified_code == e.unified_code && pastEnd e r.date)

/-- Body of the loop of apply_defecture_constraints for one defecture entry:
skip products absent from the forecast; when no forecast row is past the end
date and the latest combined wb plus ozon stock is nonpositive, zero the
quantity of every row of that product; otherwise leave the frame unchanged. -/
def defectureStep (wb_stocks ozon_stocks : List StockRow)
    (forecast : List CFRow) (e : DefectureRow) : List CFRow :=
  if hasCode forecast e.unified_code = false then forecast
  else if hasFuture forecast e = false then
    if latestStockFor wb_stocks e.unified_code
        + latestStockFor ozon_stocks e.unified_code ≤ 0 then
      forecast.map (fun r =>
        if r.unified_code = e.unified_code then { r with quantity := 0 } else r)
    else forecast
  else forecast

/-- Constraints.apply_defecture_constraints: an empty defecture list returns
the forecast unchanged, otherwise the entry loop is folded over the frame
(the stock dicts are computed once, before the loop, from the arguments). -/
def applyDefectureConstraints (forecast : List CFRow)
    (defecture_list : List DefectureRow)
    (wb_stocks ozon_stocks : List StockRow) : List CFRow :=
  if defecture_list = [] then forecast
  else defecture_list.foldl (defectureStep wb_stocks ozon_stocks) forecast

/-- Trigger predicate extracted from defectureStep: some defecture entry for
this product has no forecast row past its end date while the product's latest
combined marketplace stock is nonpositive (the hasCode conjunct records the
loop's skip of products absent from the forecast). -/
def defectureTriggered (forecast : List CFRow)
    (defecture_list : List DefectureRow)
    (wb_stocks ozon_stocks : List StockRow) (c : String) : Bool :=
  defecture_list.any (fun e =>
    e.unified_code == c && hasCode forecast c && !hasFuture forecast e &&
      decide (latestStockFor wb_stocks c + latestStockFor ozon_stocks c ≤ 0))

/-- Default box size of the Constraints class (24 units per box). -/
def defaultBoxSize : Int := 24

/-- Lookup in the box-size dict (association list). -/
def dictLookup (l : List (String × Int)) (k : String) : Option Int :=
  (l.find? (fun e => e.1 == k)).map (·.2)

/-- Box-size resolution of apply_box_constraints: the per-product entry if
the dict has one (an empty dict is falsy and cannot), else the entry under
the key default, else the global default of 24. -/
def resolveBoxSize (box_sizes : List (String × Int)) (unified_code : String) :
    Int :=
  match dictLookup box_sizes unified_code with
  | some v => v
  | none =>
      match dictLookup box_sizes "default" with
      | some d => d
      | none => defaultBoxSize

/-- Rounding of one shipment row: boxes = ceil(shipment / box_size) and the
shipment becomes boxes * box_size (both written back into the row). -/
def roundRow (box_sizes : List (String × Int)) (r : CShipRow) : CShipRow :=
  let b : ℚ := ((resolveBoxSize box_sizes r.unified_code : Int) : ℚ)
  let boxes : ℚ := ((⌈r.shipment / b⌉ : Int) : ℚ)
  { r with shipment := boxes * b, boxes := some boxes }

/-- Constraints.apply_box_constraints: empty frames pass through; a none
box_sizes argument falls back to the instance dict; every row is rounded. -/
def applyBoxConstraints (selfBoxSizes : List (String × Int))
    (box_sizes : Option (List (String × Int)))
    (shipments : List CShipRow) : List CShipRow :=
  if shipments = [] then shipments
  else shipments.map (roundRow (box_sizes.getD selfBoxSizes))

/-- Constraints.apply_shipment_withdraw_constraints: an empty withdraw list
passes the frame through; otherwise the shipment quantity of every row whose
product is withdrawn is set to 0 (isin on the set of withdrawn codes). -/
def applyShipmentWithdrawConstraints (shipments : List CShipRow)
    (withdraw_codes : List String) : List CShipRow :=
  if withdraw_codes = [] then shipments
  else shipments.map (fun r =>
    if r.unified_code ∈ withdraw_codes then { r with shipment := 0 } else r)

/-
Shipment calculator (shipment_calculator.py).  Forecast dates enter only
through their calendar month (dt.to_period), so a forecast row carries its
month key ym and day directly; stock snapshot dates are opaque ordered
values.  pandas groupby sorts group keys; the claims are insensitive to row
order, so grouping keys are taken in first-occurrence order here.
-/

/-- One (daily) forecast row for the calculator: the month key ym stands for
date.dt.to_period, columns unified_code and quantity as in the frame. -/
structure FRow where
  ym : Int
  day : Int
  unified_code : String
  quantity : ℚ
deriving DecidableEq

/-- One output shipment row of calculate_shipments (date is the month start,
identified with the month key). -/
structure ShipmentRow where
  ym : Int
  warehouse : String
  unified_code : String
  forecasted_sales : ℚ
  current_stock : ℚ
  required_stock : ℚ
  shipment : ℚ
deriving DecidableEq

/-- Group keys of the monthly aggregation: the distinct (month, product)
pairs of the forecast. -/
def monthlyKeys (forecast : List FRow) : List (Int × String) :=
  (forecast.map (fun r => (r.ym, r.unified_code))).dedup

/-- Monthly demand of one group: the summed quantity of the forecast rows of
that month and product. -/
def monthlyDemand (forecast : List FRow) (k : Int × String) : ℚ :=
  ((forecast.filter
      (fun r => r.ym == k.1 && r.unified_code == k.2)).map (·.quantity)).sum

/-- Latest stocks grouped by (unified_code, warehouse) with summed stock,
as stocks_by_product_warehouse in the code. -/
def stocksByProductWarehouse (stocks : List StockRow) :
    List (String × String × ℚ) :=
  let latest := latestStockRows stocks
  ((latest.map (fun r => (r.unified_code, r.warehouse))).dedup).map
    (fun k => (k.1, k.2,
      ((latest.filter
          (fun r => r.unified_code == k.1 && r.warehouse == k.2)).map
        (·.stock)).sum))

/-- The product_stocks selection for one product: pairs of warehouse and its
current stock. -/
def productStocksFor (spw : List (String × String × ℚ)) (c : String) :
    List (String × ℚ) :=
  spw.filterMap (fun t => if t.1 == c then some t.2 else none)

/-- Loop body of calculate_shipments for one (month, product) group.
If the group has no stock rows it is skipped.  When current total stock is
below required (= demand * coverage), the shortfall is assigned
proportionally to stock (or evenly when current total is not positive) and
rows with positive assigned shipment are emitted, carrying the aggregate
required stock.  Otherwise each warehouse strictly below the even share
required/warehouse_count is topped up to it, the row carrying that even
share as its required stock. -/
def shipGroup (coverage : ℚ) (ym : Int) (unified_code : String) (demand : ℚ)
    (pstocks : List (String × ℚ)) : List ShipmentRow :=
  if pstocks = [] then []
  else
    let required := demand * coverage
    let current := (pstocks.map (·.2)).sum
    if current < required then
      let need := required - current
      let assigned : List ((String × ℚ) × ℚ) :=
        if 0 < current then pstocks.map (fun p => (p, need * p.2 / current))
        else pstocks.map (fun p => (p, need / ((pstocks.length : Int) : ℚ)))
      assigned.filterMap (fun q =>
        if 0 < q.2 then
          some ⟨ym, q.1.1, unified_code, demand, q.1.2, required, q.2⟩
        else none)
    else
      pstocks.filterMap (fun p =>
        let avg := required / ((pstocks.length : Int) : ℚ)
        if p.2 < avg then
          some ⟨ym, p.1, unified_code, demand, p.2, avg, avg - p.2⟩
        else none)

/-- ShipmentCalculator.calculate_shipments: aggregate the forecast by month
and product, group the latest stocks by product and warehouse, and emit the
per-group shipment rows. -/
def calculateShipments (coverage : ℚ) (forecast : List FRow)
    (stocks : List StockRow) : List ShipmentRow :=
  let spw := stocksByProductWarehouse stocks
  ((monthlyKeys forecast).map (fun k =>
    shipGroup coverage k.1 k.2 (monthlyDemand forecast k)
      (productStocksFor spw k.2))).flatten

/-
Forecast ledger (forecast_manager.py).  The snapshot directory becomes a
list of (filename, rows) pairs; glob patterns (which here use only the star
wildcard) are matched by an explicit matcher.  CSV parse failures are not
modelled (every stored table reads back); files whose stem splits into fewer
than three underscore-separated parts receive no annotation columns, which
is modelled as empty annotation strings.
-/

/-- One row of a stored forecast snapshot (columns date, unified_code,
quantity). -/
structure HRow where
  date : Int
  unified_code : String
  quantity : ℚ
deriving DecidableEq

/-- One row of the combined history table: a snapshot row plus the
marketplace, model_name and forecast_date annotations parsed from the
snapshot's filename. -/
structure AnnRow where
  date : Int
  unified_code : String
  quantity : ℚ
  marketplace : String
  model_name : String
  forecast_date : String
deriving DecidableEq

/-- Star-wildcard glob matching on character lists, with a fuel argument for
structural recursion; fuel of pattern length plus string length plus one is
always sufficient, since every recursive call shrinks that sum. -/
def globMatchFuel : Nat → List Char → List Char → Bool
  | 0, _, _ => false
  | _ + 1, [], s => s.isEmpty
  | fuel + 1, '*' :: ps, [] => globMatchFuel fuel ps []
  | fuel + 1, '*' :: ps, c :: cs =>
      globMatchFuel fuel ps (c :: cs) || globMatchFuel fuel ('*' :: ps) cs
  | fuel + 1, p :: ps, c :: cs => p == c && globMatchFuel fuel ps cs
  | _ + 1, _ :: _, [] => false

/-- Whether a filename matches a glob pattern (star wildcards only, as in
every pattern the ledger builds). -/
def globMatch (pattern name : String) : Bool :=
  globMatchFuel (pattern.length + name.length + 1) pattern.data name.data

/-- Path.stem of a filename: the part before the last dot, or the whole name
when it has no dot. -/
def stemChars (s : List Char) : List Char :=
  if '.' ∈ s then ((s.reverse.dropWhile (fun c => c != '.')).drop 1).reverse
  else s

/-- str.split on the underscore character. -/
def splitUnd : List Char → List (List Char)
  | [] => [[]]
  | '_' :: cs => [] :: splitUnd cs
  | c :: cs =>
      match splitUnd cs with
      | [] => [[c]]
      | h :: t => (c :: h) :: t

/-- The join of underscore-separated parts (the forecast_date annotation
glues the third and later parts back together). -/
def joinUnd : List (List Char) → List Char
  | [] => []
  | [x] => x
  | x :: xs => x ++ '_' :: joinUnd xs

/-- Annotation of one snapshot's rows from its filename: with at least three
underscore-separated stem parts the first is the marketplace, the second the
model name and the rest rejoined the forecast date; otherwise the columns
are absent (empty here). -/
def annotateRows (filename : String) (rows : List HRow) : List AnnRow :=
  match splitUnd (stemChars filename.data) with
  | p0 :: p1 :: p2 :: ps =>
      rows.map (fun r =>
        ⟨r.date, r.unified_code, r.quantity,
         String.mk p0, String.mk p1, String.mk (joinUnd (p2 :: ps))⟩)
  | _ => rows.map (fun r => ⟨r.date, r.unified_code, r.quantity, "", "", ""⟩)

/-- ForecastManager.get_forecast_history.  The glob pattern starts as the
three-part wildcard, is replaced by a marketplace-prefixed pattern when that
filter is given, and is then replaced outright by a model-name pattern when
that filter is given (so a model filter discards a marketplace filter).
Matching files are read, annotated from their names and concatenated, and
the product filter is applied to the combined rows. -/
def getForecastHistory (files : List (String × List HRow))
    (marketplace model_name unified_code : Option String) : List AnnRow :=
  let pattern :=
    match marketplace, model_name with
    | _, some m => "*_" ++ m ++ "_*.csv"
    | some mp, none => mp ++ "_*_*.csv"
    | none, none => "*_*_*.csv"
  let selected := files.filter (fun f => globMatch pattern f.1)
  let combined := (selected.map (fun f => annotateRows f.1 f.2)).flatten
  match unified_code with
  | some c => combined.filter (fun r => r.unified_code == c)
  | none => combined

/-
Supporting lemmas for the evaluator store.
-/

theorem storeLookup_update_self (s : EvalStore) (k : String) (v : EvalResult) :
    storeLookup (storeUpdate s k v) k = some v := by
  induction s with
  | nil => simp [storeUpdate, storeLookup]
  | cons e t ih =>
      obtain ⟨k2, w⟩ := e
      by_cases h : k2 = k
      · subst h; simp [storeUpdate, storeLookup]
      · simp [storeUpdate, storeLookup, h, ih]

theorem storeLookup_update_other (s : EvalStore) (k : String) (v : EvalResult)
    (k2 : String) (h : k2 ≠ k) :
    storeLookup (storeUpdate s k v) k2 = storeLookup s k2 := by
  induction s with
  | nil => simp [storeUpdate, storeLookup, Ne.symm h]
  | cons e t ih =>
      obtain ⟨k3, w⟩ := e
      by_cases h3 : k3 = k
      · subst h3
        simp [storeUpdate, storeLookup, Ne.symm h]
      · simp only [storeUpdate, if_neg h3, storeLookup]
        by_cases h4 : k3 = k2 <;> simp [h4, ih]

theorem validPairs_nil_of_left_nil (y_pred : List ERat) :
    validPairs [] y_pred = [] := by
  simp [validPairs]

theorem validPairs_nil_of_right_nil (y_true : List ERat) :
    validPairs y_true [] = [] := by
  simp [validPairs]

/-- Unfolding of the full (storing) path of evaluate_model: with at least one
valid comparison point the function computes the result, stores it and
returns its metric quadruple. -/
theorem evaluateModel_eq_of_valid (store : EvalStore)
    (y_true y_pred : List ERat) (model_name unified_code : String)
    (h : validPairs y_true y_pred ≠ []) :
    evaluateModel store y_true y_pred model_name unified_code
      = ((computeResult (validPairs y_true y_pred) model_name
            unified_code).toMetrics,
         storeUpdate store (unified_code ++ "_" ++ model_name)
           (computeResult (validPairs y_true y_pred) model_name
             unified_code)) := by
  have h0 : ¬(y_true = [] ∨ y_pred = []) := by
    rintro (rfl | rfl)
    · exact h (validPairs_nil_of_left_nil _)
    · exact h (validPairs_nil_of_right_nil _)
  unfold evaluateModel
  simp [h0, h]

/-- C4: whenever truncation to the common length followed by the finiteness
and positivity filter leaves no comparison points, evaluate_model returns the
sentinel worst-case metrics (mae = rmse = mape = plus infinity, r2 = minus
infinity). -/
theorem evaluateModel_sentinel_of_no_valid_points (store : EvalStore)
    (y_true y_pred : List ERat) (model_name unified_code : String)
    (h : validPairs y_true y_pred = []) :
    (evaluateModel store y_true y_pred model_name unified_code).1
      = sentinelMetrics := by
  unfold evaluateModel
  simp [h]

/-- Witness for C4 at a concrete input: one point whose actual value is 0 is
filtered out, so the metrics are the sentinels. -/
theorem evaluateModel_sentinel_witness :
    validPairs [ERat.ofRat 0] [ERat.ofRat 1] = []
    ∧ (evaluateModel [] [ERat.ofRat 0] [ERat.ofRat 1] "model" "P").1
        = sentinelMetrics :=
  ⟨by decide,
   evaluateModel_sentinel_of_no_valid_points [] [ERat.ofRat 0] [ERat.ofRat 1]
     "model" "P" (by decide)⟩

/-- C5 counterexample: a call whose input yields zero valid comparison points
(actual value -3 is not positive) leaves the store empty, storing nothing
under the key, contrary to the claim that every call stores its result. -/
theorem evaluateModel_no_store_counterexample :
    validPairs [ERat.ofRat (-3)] [ERat.ofRat 2] = []
    ∧ (evaluateModel [] [ERat.ofRat (-3)] [ERat.ofRat 2] "m1" "PX").2 = []
    ∧ storeLookup (evaluateModel [] [ERat.ofRat (-3)] [ERat.ofRat 2]
        "m1" "PX").2 ("PX" ++ "_" ++ "m1") = none := by
  refine ⟨by decide, by decide, by decide⟩

/-- C5 as amended: a call with at least one valid comparison point stores its
result in the store under the key unified_code underscore model_name,
overwriting any prior entry at that exact key and leaving all other keys
unchanged.  (Calls with no valid points return early without storing, see the
counterexample.) -/
theorem evaluateModel_stores_result (store : EvalStore)
    (y_true y_pred : List ERat) (model_name unified_code : String)
    (h : validPairs y_true y_pred ≠ []) :
    (evaluateModel store y_true y_pred model_name unified_code).2
        = storeUpdate store (unified_code ++ "_" ++ model_name)
            (computeResult (validPairs y_true y_pred) model_name unified_code)
    ∧ storeLookup (evaluateModel store y_true y_pred model_name
          unified_code).2 (unified_code ++ "_" ++ model_name)
        = some (computeResult (validPairs y_true y_pred) model_name
            unified_code)
    ∧ ∀ k, k ≠ unified_code ++ "_" ++ model_name →
        storeLookup (evaluateModel store y_true y_pred model_name
            unified_code).2 k = storeLookup store k := by
  rw [evaluateModel_eq_of_valid store y_true y_pred model_name unified_code h]
  refine ⟨rfl, storeLookup_update_self _ _ _, ?_⟩
  intro k hk
  exact storeLookup_update_other _ _ _ _ hk

/-- Witness for the amended C5 at a concrete input with one valid point. -/
theorem evaluateModel_stores_result_witness :
    validPairs [ERat.ofRat 2] [ERat.ofRat 1] ≠ []
    ∧ ((evaluateModel [] [ERat.ofRat 2] [ERat.ofRat 1] "m1" "PX").2
          = storeUpdate [] ("PX" ++ "_" ++ "m1")
              (computeResult (validPairs [ERat.ofRat 2] [ERat.ofRat 1])
                "m1" "PX")
        ∧ storeLookup (evaluateModel [] [ERat.ofRat 2] [ERat.ofRat 1]
              "m1" "PX").2 ("PX" ++ "_" ++ "m1")
            = some (computeResult (validPairs [ERat.ofRat 2] [ERat.ofRat 1])
                "m1" "PX")
        ∧ ∀ k, k ≠ "PX" ++ "_" ++ "m1" →
            storeLookup (evaluateModel [] [ERat.ofRat 2] [ERat.ofRat 1]
                "m1" "PX").2 k = storeLookup [] k) :=
  ⟨by decide, evaluateModel_stores_result [] [ERat.ofRat 2] [ERat.ofRat 1]
    "m1" "PX" (by decide)⟩

/-- C7: the shipment-side withdraw pass maps every row to itself except that
withdrawn products get shipment 0 (no stock input is consulted and every
other column of every row is untouched), and the pass is idempotent. -/
theorem shipmentWithdraw_zeroes_and_idempotent (shipments : List CShipRow)
    (withdraw_codes : List String) :
    applyShipmentWithdrawConstraints shipments withdraw_codes
        = shipments.map (fun r =>
            if r.unified_code ∈ withdraw_codes then { r with shipment := 0 }
            else r)
    ∧ applyShipmentWithdrawConstraints
          (applyShipmentWithdrawConstraints shipments withdraw_codes)
          withdraw_codes
        = applyShipmentWithdrawConstraints shipments withdraw_codes := by
  have hmap : ∀ l : List CShipRow,
      applyShipmentWithdrawConstraints l withdraw_codes
        = l.map (fun r =>
            if r.unified_code ∈ withdraw_codes then { r with shipment := 0 }
            else r) := by
    intro l
    unfold applyShipmentWithdrawConstraints
    by_cases hw : withdraw_codes = []
    · subst hw; simp
    · simp [hw]
  refine ⟨hmap shipments, ?_⟩
  rw [hmap, hmap, List.map_map]
  apply List.map_congr_left
  intro r _
  by_cases hr : r.unified_code ∈ withdraw_codes <;> simp [hr]

/-
Box rounding (C2).
-/

theorem resolveBoxSize_pos (bs : List (String × Int))
    (hpos : ∀ e ∈ bs, 0 < e.2) (c : String) : 0 < resolveBoxSize bs c := by
  unfold resolveBoxSize
  cases hfind : dictLookup bs c with
  | some v =>
      rcases Option.map_eq_some'.mp hfind with ⟨e, he, hv⟩
      rw [← hv]
      exact hpos e (List.mem_of_find?_eq_some he)
  | none =>
      cases hfind2 : dictLookup bs "default" with
      | some d =>
          rcases Option.map_eq_some'.mp hfind2 with ⟨e, he, hv⟩
          rw [← hv]
          exact hpos e (List.mem_of_find?_eq_some he)
      | none => norm_num [defaultBoxSize]

theorem roundRow_idem (bs : List (String × Int))
    (hpos : ∀ e ∈ bs, 0 < e.2) (r : CShipRow) :
    roundRow bs (roundRow bs r) = roundRow bs r := by
  have hb : (0 : ℚ) < ((resolveBoxSize bs r.unified_code : Int) : ℚ) := by
    exact_mod_cast resolveBoxSize_pos bs hpos r.unified_code
  have hbne : ((resolveBoxSize bs r.unified_code : Int) : ℚ) ≠ 0 := ne_of_gt hb
  simp [roundRow, mul_div_cancel_right₀ _ hbne]

/-- C2: box rounding resolves the box size (per-product entry, else the
default entry, else 24), rounds each shipment up to the next multiple of it
(never below the original, always an exact multiple, with
boxes = rounded / box_size recorded), and re-applying the pass with the same
box sizes is the identity on the already-rounded frame. -/
theorem boxConstraints_round_and_idempotent
    (selfBoxSizes : List (String × Int))
    (box_sizes : Option (List (String × Int))) (shipments : List CShipRow)
    (hpos : ∀ e ∈ box_sizes.getD selfBoxSizes, 0 < e.2) :
    applyBoxConstraints selfBoxSizes box_sizes shipments
        = shipments.map (roundRow (box_sizes.getD selfBoxSizes))
    ∧ (∀ r : CShipRow,
        (roundRow (box_sizes.getD selfBoxSizes) r).shipment
            = ((⌈r.shipment / ((resolveBoxSize (box_sizes.getD selfBoxSizes)
                  r.unified_code : Int) : ℚ)⌉ : Int) : ℚ)
                * ((resolveBoxSize (box_sizes.getD selfBoxSizes)
                  r.unified_code : Int) : ℚ)
        ∧ r.shipment ≤ (roundRow (box_sizes.getD selfBoxSizes) r).shipment
        ∧ (∃ k : Int, (roundRow (box_sizes.getD selfBoxSizes) r).shipment
            = (k : ℚ) * ((resolveBoxSize (box_sizes.getD selfBoxSizes)
                r.unified_code : Int) : ℚ))
        ∧ (roundRow (box_sizes.getD selfBoxSizes) r).boxes
            = some ((roundRow (box_sizes.getD selfBoxSizes) r).shipment
                / ((resolveBoxSize (box_sizes.getD selfBoxSizes)
                  r.unified_code : Int) : ℚ))
        ∧ roundRow (box_sizes.getD selfBoxSizes)
              (roundRow (box_sizes.getD selfBoxSizes) r)
            = roundRow (box_sizes.getD selfBoxSizes) r)
    ∧ applyBoxConstraints selfBoxSizes box_sizes
          (applyBoxConstraints selfBoxSizes box_sizes shipments)
        = applyBoxConstraints selfBoxSizes box_sizes shipments := by
  set bs := box_sizes.getD selfBoxSizes with hbs
  have hmap : ∀ l : List CShipRow,
      applyBoxConstraints selfBoxSizes box_sizes l = l.map (roundRow bs) := by
    intro l
    unfold applyBoxConstraints
    by_cases hl : l = []
    · subst hl; simp
    · simp [hl, hbs]
  refine ⟨hmap shipments, ?_, ?_⟩
  · intro r
    have hb : (0 : ℚ) < ((resolveBoxSize bs r.unified_code : Int) : ℚ) := by
      exact_mod_cast resolveBoxSize_pos bs hpos r.unified_code
    have hbne : ((resolveBoxSize bs r.unified_code : Int) : ℚ) ≠ 0 :=
      ne_of_gt hb
    refine ⟨rfl, ?_, ⟨⌈r.shipment / ((resolveBoxSize bs
        r.unified_code : Int) : ℚ)⌉, rfl⟩, ?_, roundRow_idem bs hpos r⟩
    · show r.shipment ≤ ((⌈r.shipment / ((resolveBoxSize bs
          r.unified_code : Int) : ℚ)⌉ : Int) : ℚ)
            * ((resolveBoxSize bs r.unified_code : Int) : ℚ)
      exact (div_le_iff₀ hb).mp (Int.le_ceil _)
    · show (some ((⌈r.shipment / ((resolveBoxSize bs
          r.unified_code : Int) : ℚ)⌉ : Int) : ℚ) : Option ℚ)
          = some (((⌈r.shipment / ((resolveBoxSize bs
              r.unified_code : Int) : ℚ)⌉ : Int) : ℚ)
            * ((resolveBoxSize bs r.unified_code : Int) : ℚ)
            / ((resolveBoxSize bs r.unified_code : Int) : ℚ))
      rw [mul_div_cancel_right₀ _ hbne]
  · rw [hmap, hmap, List.map_map]
    apply List.map_congr_left
    intro r _
    exact roundRow_idem bs hpos r

/-- Witness for C2 at a concrete input: one shipment of 100 with an empty
box-size dict resolves the default of 24, rounding to 5 boxes of 120. -/
theorem boxConstraints_witness :
    (∀ e ∈ (none : Option (List (String × Int))).getD [], 0 < e.2)
    ∧ (applyBoxConstraints [] none
          [⟨0, "W", "P", 0, 0, 0, 100, none⟩]
          = [⟨0, "W", "P", 0, 0, 0, 100, none⟩].map
              (roundRow ((none : Option (List (String × Int))).getD []))
        ∧ applyBoxConstraints [] none
              (applyBoxConstraints [] none [⟨0, "W", "P", 0, 0, 0, 100, none⟩])
            = applyBoxConstraints [] none
                [⟨0, "W", "P", 0, 0, 0, 100, none⟩]) := by
  have h := boxConstraints_round_and_idempotent [] none
    [⟨0, "W", "P", 0, 0, 0, 100, none⟩] (by simp)
  exact ⟨by simp, h.1, h.2.2⟩

/-
Defecture constraint (C6).
-/

theorem listAny_congr {α : Type} (l : List α) (p q : α → Bool)
    (h : ∀ x ∈ l, p x = q x) : l.any p = l.any q := by
  induction l with
  | nil => rfl
  | cons a t ih =>
      simp only [List.any_cons]
      rw [h a (List.mem_cons_self a t), ih (fun x hx => h x (List.mem_cons_of_mem a hx))]

/-- Trigger of a single defecture entry, as tested inside the loop body:
the product occurs in the forecast, no forecast row is past the entry's end
date, and the latest combined marketplace stock is nonpositive. -/
def trigE (forecast : List CFRow) (wb_stocks ozon_stocks : List StockRow)
    (e : DefectureRow) : Bool :=
  hasCode forecast e.unified_code && !hasFuture forecast e &&
    decide (latestStockFor wb_stocks e.unified_code
      + latestStockFor ozon_stocks e.unified_code ≤ 0)

/-- The zeroing map of one entry. -/
def zeroCode (c : String) (r : CFRow) : CFRow :=
  if r.unified_code = c then { r with quantity := 0 } else r

theorem zeroCode_code (c : String) (r : CFRow) :
    (zeroCode c r).unified_code = r.unified_code := by
  unfold zeroCode
  by_cases h : r.unified_code = c <;> simp [h]

theorem zeroCode_date (c : String) (r : CFRow) :
    (zeroCode c r).date = r.date := by
  unfold zeroCode
  by_cases h : r.unified_code = c <;> simp [h]

theorem hasCode_map_zero (forecast : List CFRow) (c c2 : String) :
    hasCode (forecast.map (zeroCode c2)) c = hasCode forecast c := by
  unfold hasCode
  rw [List.any_map]
  apply listAny_congr
  intro r _
  simp [Function.comp, zeroCode_code]

theorem hasFuture_map_zero (forecast : List CFRow) (c2 : String)
    (e : DefectureRow) :
    hasFuture (forecast.map (zeroCode c2)) e = hasFuture forecast e := by
  unfold hasFuture
  rw [List.any_map]
  apply listAny_congr
  intro r _
  simp [Function.comp, zeroCode_code, zeroCode_date]

theorem trigE_map_zero (forecast : List CFRow)
    (wb_stocks ozon_stocks : List StockRow) (c2 : String) (e : DefectureRow) :
    trigE (forecast.map (zeroCode c2)) wb_stocks ozon_stocks e
      = trigE forecast wb_stocks ozon_stocks e := by
  unfold trigE
  rw [hasCode_map_zero, hasFuture_map_zero]

/-- The loop body for one entry rewritten as a conditional zeroing map. -/
theorem defectureStep_eq (wb_stocks ozon_stocks : List StockRow)
    (forecast : List CFRow) (e : DefectureRow) :
    defectureStep wb_stocks ozon_stocks forecast e
      = if trigE forecast wb_stocks ozon_stocks e
        then forecast.map (zeroCode e.unified_code) else forecast := by
  unfold defectureStep trigE zeroCode
  by_cases h1 : hasCode forecast e.unified_code
  · by_cases h2 : hasFuture forecast e
    · simp [h1, h2]
    · by_cases h3 : latestStockFor wb_stocks e.unified_code
          + latestStockFor ozon_stocks e.unified_code ≤ 0
      · simp [h1, h2, h3]
      · simp [h1, h2, h3]
  · simp [h1]

/-- Folding the entry loop over the frame zeroes each row exactly when some
entry for its product triggers (all conditions evaluated against the
original frame, whose codes and dates the loop never changes). -/
theorem defecture_fold_eq (wb_stocks ozon_stocks : List StockRow)
    (dl : List DefectureRow) :
    ∀ forecast : List CFRow,
      dl.foldl (defectureStep wb_stocks ozon_stocks) forecast
        = forecast.map (fun r =>
            if dl.any (fun e => trigE forecast wb_stocks ozon_stocks e
                && (e.unified_code == r.unified_code))
            then { r with quantity := 0 } else r) := by
  induction dl with
  | nil =>
      intro forecast
      simp
  | cons e es ih =>
      intro forecast
      rw [List.foldl_cons, defectureStep_eq]
      by_cases he : trigE forecast wb_stocks ozon_stocks e
      · rw [if_pos he, ih (forecast.map (zeroCode e.unified_code)),
          List.map_map]
        apply List.map_congr_left
        intro r _
        simp only [Function.comp]
        have htr : ∀ e2, trigE (forecast.map (zeroCode e.unified_code))
            wb_stocks ozon_stocks e2 = trigE forecast wb_stocks ozon_stocks e2 :=
          fun e2 => trigE_map_zero forecast wb_stocks ozon_stocks _ e2
        simp only [htr]
        by_cases hc : e.unified_code = r.unified_code
        · simp [zeroCode, he, hc, List.any_cons]
        · have hcode : (zeroCode e.unified_code r) = r := by
            unfold zeroCode
            rw [if_neg (Ne.symm hc)]
          rw [hcode]
          simp only [List.any_cons]
          have hfalse : (e.unified_code == r.unified_code) = false := by
            simp [hc]
          simp [he, hfalse]
      · rw [if_neg he, ih forecast]
        apply List.map_congr_left
        intro r _
        simp only [List.any_cons]
        have hfalse : (trigE forecast wb_stocks ozon_stocks e
            && (e.unified_code == r.unified_code)) = false := by
          simp [he]
        simp only [hfalse, Bool.false_or]

/-- C6 as amended: the defecture pass zeroes all rows of a product exactly
when some defecture entry for it has no forecast row dated past its end date
while the latest combined wb plus ozon stock is nonpositive; when any row of
the product is past the end date, the entry changes nothing (not even the
rows dated before the end date). -/
theorem defecture_zeroes_iff_triggered (forecast : List CFRow)
    (defecture_list : List DefectureRow)
    (wb_stocks ozon_stocks : List StockRow) :
    applyDefectureConstraints forecast defecture_list wb_stocks ozon_stocks
      = forecast.map (fun r =>
          if defectureTriggered forecast defecture_list wb_stocks ozon_stocks
              r.unified_code
          then { r with quantity := 0 } else r) := by
  unfold applyDefectureConstraints
  by_cases hdl : defecture_list = []
  · subst hdl; simp [defectureTriggered]
  · rw [if_neg hdl, defecture_fold_eq]
    apply List.map_congr_left
    intro r _
    have hq : (defecture_list.any (fun e =>
          trigE forecast wb_stocks ozon_stocks e
            && (e.unified_code == r.unified_code)))
        = defectureTriggered forecast defecture_list wb_stocks ozon_stocks
            r.unified_code := by
      unfold defectureTriggered
      apply listAny_congr
      intro e _
      unfold trigE
      by_cases hc : e.unified_code = r.unified_code
      · rw [hc]
        by_cases h1 : hasCode forecast r.unified_code
        · by_cases h2 : hasFuture forecast e <;> simp [h1, h2, hc]
        · simp [h1]
      · have h1 : (e.unified_code == r.unified_code) = false := by simp [hc]
        simp [h1]
    rw [hq]

/-- C6 counterexample: product P is in the defecture list with end date 5 and
zero marketplace stock, and the forecast row at date 1 is not past the end
date; the claim requires that row to be zeroed, but because another row of P
(date 10) lies past the end date the pass leaves the whole frame unchanged. -/
theorem defecture_counterexample :
    pastEnd ⟨"P", some 5⟩ 1 = false
    ∧ latestStockFor [] "P" + latestStockFor [] "P" ≤ 0
    ∧ applyDefectureConstraints [⟨1, "P", 5⟩, ⟨10, "P", 7⟩]
        [⟨"P", some 5⟩] [] []
        = [⟨1, "P", 5⟩, ⟨10, "P", 7⟩]
    ∧ (applyDefectureConstraints [⟨1, "P", 5⟩, ⟨10, "P", 7⟩]
        [⟨"P", some 5⟩] [] []).map (fun r => r.quantity) = [5, 7] := by
  have h2 : latestStockFor [] "P" + latestStockFor [] "P" ≤ 0 := by
    show (0 : ℚ) + 0 ≤ 0
    norm_num
  exact ⟨by decide, h2, by rfl, by rfl⟩

/-
Shipment calculator (C1, C8).
-/

theorem listSum_nonneg (l : List ℚ) (h : ∀ x ∈ l, 0 ≤ x) : 0 ≤ l.sum := by
  induction l with
  | nil => simp
  | cons a t ih =>
      simp only [List.sum_cons]
      have ha := h a (List.mem_cons_self a t)
      have ht := ih (fun x hx => h x (List.mem_cons_of_mem a hx))
      linarith

theorem listSum_const {α : Type} (l : List α) (c : ℚ) :
    (l.map (fun _ => c)).sum = (l.length : ℚ) * c := by
  induction l with
  | nil => simp
  | cons a t ih =>
      simp only [List.map_cons, List.sum_cons, List.length_cons, ih]
      push_cast
      ring

/-- Unfolding of the shortfall branch of the group loop. -/
theorem shipGroup_eq_short (coverage : ℚ) (ym : Int) (code : String)
    (demand : ℚ) (pstocks : List (String × ℚ)) (hne : pstocks ≠ [])
    (hshort : (pstocks.map (fun p => p.2)).sum < demand * coverage) :
    shipGroup coverage ym code demand pstocks
      = (if 0 < (pstocks.map (fun p => p.2)).sum then
          pstocks.map (fun p => (p,
            (demand * coverage - (pstocks.map (fun p => p.2)).sum) * p.2
              / (pstocks.map (fun p => p.2)).sum))
        else
          pstocks.map (fun p => (p,
            (demand * coverage - (pstocks.map (fun p => p.2)).sum)
              / ((pstocks.length : Int) : ℚ)))).filterMap
        (fun q => if 0 < q.2 then
          some ⟨ym, q.1.1, code, demand, q.1.2, demand * coverage, q.2⟩
        else none) := by
  unfold shipGroup
  rw [if_neg hne]
  simp only [if_pos hshort]

/-- Unfolding of the balancing branch of the group loop. -/
theorem shipGroup_eq_balance (coverage : ℚ) (ym : Int) (code : String)
    (demand : ℚ) (pstocks : List (String × ℚ)) (hne : pstocks ≠ [])
    (hge : ¬ (pstocks.map (fun p => p.2)).sum < demand * coverage) :
    shipGroup coverage ym code demand pstocks
      = pstocks.filterMap (fun p =>
          if p.2 < demand * coverage / ((pstocks.length : Int) : ℚ) then
            some ⟨ym, p.1, code, demand, p.2,
              demand * coverage / ((pstocks.length : Int) : ℚ),
              demand * coverage / ((pstocks.length : Int) : ℚ) - p.2⟩
          else none) := by
  unfold shipGroup
  rw [if_neg hne]
  simp only [if_neg hge]

theorem sum_shipments_filterMap (ym : Int) (code : String)
    (demand required : ℚ) (l : List ((String × ℚ) × ℚ))
    (h : ∀ q ∈ l, 0 ≤ q.2) :
    ((l.filterMap (fun q => if 0 < q.2 then
        some (⟨ym, q.1.1, code, demand, q.1.2, required, q.2⟩ : ShipmentRow)
      else none)).map (fun r => r.shipment)).sum
      = (l.map (fun q => q.2)).sum := by
  induction l with
  | nil => simp
  | cons q t ih =>
      have hq := h q (List.mem_cons_self q t)
      have ht := ih (fun x hx => h x (List.mem_cons_of_mem q hx))
      by_cases h0 : 0 < q.2
      · simp only [List.filterMap_cons, if_pos h0, List.map_cons,
          List.sum_cons, ht]
      · have hz : q.2 = 0 := le_antisymm (not_lt.mp h0) hq
        simp only [List.filterMap_cons, if_neg h0]
        simp only [List.map_cons, List.sum_cons, ht, hz, zero_add]

theorem filterMap_all_pos (ym : Int) (code : String)
    (demand required : ℚ) (l : List ((String × ℚ) × ℚ))
    (h : ∀ q ∈ l, 0 < q.2) :
    l.filterMap (fun q => if 0 < q.2 then
        some (⟨ym, q.1.1, code, demand, q.1.2, required, q.2⟩ : ShipmentRow)
      else none)
      = l.map (fun q =>
          (⟨ym, q.1.1, code, demand, q.1.2, required, q.2⟩ : ShipmentRow)) := by
  induction l with
  | nil => simp
  | cons q t ih =>
      have hq := h q (List.mem_cons_self q t)
      simp only [List.filterMap_cons, if_pos hq, List.map_cons]
      rw [ih (fun x hx => h x (List.mem_cons_of_mem q hx))]

/-- C1 (with the data-model precondition that stock quantities are
nonnegative): when a (month, product) group has stock rows and its current
total stock is short of required = demand * coverage, the emitted shipments
sum exactly to the shortfall; with positive current stock every emitted row
carries shortfall * stock / current_total and every positively stocked
warehouse gets such a row; with zero current stock every warehouse of the
product gets the equal share shortfall / warehouse_count. -/
theorem shipGroup_shortfall_conservation
    (coverage : ℚ) (ym : Int) (code : String) (demand : ℚ)
    (pstocks : List (String × ℚ))
    (hne : pstocks ≠ [])
    (hnn : ∀ p ∈ pstocks, 0 ≤ p.2)
    (hshort : (pstocks.map (fun p => p.2)).sum < demand * coverage) :
    ((shipGroup coverage ym code demand pstocks).map
        (fun r => r.shipment)).sum
      = demand * coverage - (pstocks.map (fun p => p.2)).sum
    ∧ (0 < (pstocks.map (fun p => p.2)).sum →
        (∀ r ∈ shipGroup coverage ym code demand pstocks,
            r.shipment = (demand * coverage
                - (pstocks.map (fun p => p.2)).sum) * r.current_stock
              / (pstocks.map (fun p => p.2)).sum)
        ∧ ∀ p ∈ pstocks, 0 < p.2 →
            ∃ r ∈ shipGroup coverage ym code demand pstocks,
              r.warehouse = p.1 ∧ r.current_stock = p.2
              ∧ r.shipment = (demand * coverage
                  - (pstocks.map (fun p2 => p2.2)).sum) * p.2
                / (pstocks.map (fun p2 => p2.2)).sum)
    ∧ ((pstocks.map (fun p => p.2)).sum = 0 →
        (shipGroup coverage ym code demand pstocks).map
            (fun r => (r.warehouse, r.shipment))
          = pstocks.map (fun p =>
              (p.1, demand * coverage / ((pstocks.length : Int) : ℚ)))) := by
  have hrw := shipGroup_eq_short coverage ym code demand pstocks hne hshort
  by_cases hpos : 0 < (pstocks.map (fun p => p.2)).sum
  · rw [if_pos hpos] at hrw
    have hgap : 0 ≤ demand * coverage - (pstocks.map (fun p => p.2)).sum := by
      linarith
    have hnnq : ∀ q ∈ pstocks.map (fun p => (p,
        (demand * coverage - (pstocks.map (fun p => p.2)).sum) * p.2
          / (pstocks.map (fun p => p.2)).sum)), 0 ≤ q.2 := by
      intro q hq
      rcases List.mem_map.mp hq with ⟨p, hp, rfl⟩
      exact div_nonneg (mul_nonneg hgap (hnn p hp)) (le_of_lt hpos)
    refine ⟨?_, fun _ => ⟨?_, ?_⟩, fun hzero => absurd hzero (ne_of_gt hpos)⟩
    · rw [hrw, sum_shipments_filterMap _ _ _ _ _ hnnq, List.map_map]
      have hfun : ((fun (q : (String × ℚ) × ℚ) => q.2) ∘
          (fun (p : String × ℚ) => (p,
            (demand * coverage - (pstocks.map (fun p => p.2)).sum) * p.2
              / (pstocks.map (fun p => p.2)).sum)))
          = fun (p : String × ℚ) =>
              ((demand * coverage - (pstocks.map (fun p => p.2)).sum)
                / (pstocks.map (fun p => p.2)).sum) * p.2 := by
        funext p
        simp only [Function.comp]
        ring
      rw [hfun, List.sum_map_mul_left,
        div_mul_cancel₀ _ (ne_of_gt hpos)]
    · intro r hr
      rw [hrw] at hr
      rcases List.mem_filterMap.mp hr with ⟨q, hq, hcond⟩
      by_cases h0 : 0 < q.2
      · rw [if_pos h0] at hcond
        rcases List.mem_map.mp hq with ⟨p, hp, rfl⟩
        have := Option.some.inj hcond
        rw [← this]
      · rw [if_neg h0] at hcond
        cases hcond
    · intro p hp hppos
      have hspos : 0 < (demand * coverage
          - (pstocks.map (fun p2 => p2.2)).sum) * p.2
            / (pstocks.map (fun p2 => p2.2)).sum := by
        apply div_pos (mul_pos (by linarith) hppos) hpos
      refine ⟨⟨ym, p.1, code, demand, p.2, demand * coverage,
        (demand * coverage - (pstocks.map (fun p2 => p2.2)).sum) * p.2
          / (pstocks.map (fun p2 => p2.2)).sum⟩, ?_, rfl, rfl, rfl⟩
      rw [hrw]
      apply List.mem_filterMap.mpr
      refine ⟨(p, (demand * coverage - (pstocks.map (fun p2 => p2.2)).sum)
          * p.2 / (pstocks.map (fun p2 => p2.2)).sum),
        List.mem_map.mpr ⟨p, hp, rfl⟩, ?_⟩
      rw [if_pos hspos]
  · have hzero : (pstocks.map (fun p => p.2)).sum = 0 := by
      apply le_antisymm (not_lt.mp hpos)
      apply listSum_nonneg
      intro x hx
      rcases List.mem_map.mp hx with ⟨p, hp, rfl⟩
      exact hnn p hp
    rw [if_neg hpos] at hrw
    have hn : (0 : ℚ) < ((pstocks.length : Int) : ℚ) := by
      have h1 : 0 < pstocks.length := List.length_pos.mpr hne
      exact_mod_cast h1
    have hspos : 0 < (demand * coverage - (pstocks.map (fun p => p.2)).sum)
        / ((pstocks.length : Int) : ℚ) := div_pos (by linarith) hn
    have hall : ∀ q ∈ pstocks.map (fun p => (p,
        (demand * coverage - (pstocks.map (fun p => p.2)).sum)
          / ((pstocks.length : Int) : ℚ))), 0 < q.2 := by
      intro q hq
      rcases List.mem_map.mp hq with ⟨p, hp, rfl⟩
      exact hspos
    rw [filterMap_all_pos _ _ _ _ _ hall] at hrw
    refine ⟨?_, fun hp0 => absurd hzero (ne_of_gt hp0), fun _ => ?_⟩
    · rw [hrw]
      simp only [List.map_map, Function.comp_def]
      rw [listSum_const]
      rw [hzero, sub_zero]
      have hcast : ((pstocks.length : ℚ)) = ((pstocks.length : Int) : ℚ) := by
        push_cast
        rfl
      rw [hcast, mul_div_cancel₀ _ (ne_of_gt hn)]
    · rw [hrw]
      simp only [List.map_map, Function.comp_def]
      apply List.map_congr_left
      intro p _
      rw [hzero, sub_zero]

/-- The row emitted by the balancing pass for one under-stocked warehouse. -/
def balanceRow (ym : Int) (code : String) (demand avg : ℚ)
    (p : String × ℚ) : ShipmentRow :=
  ⟨ym, p.1, code, demand, p.2, avg, avg - p.2⟩

theorem balance_filter_not_mem (ym : Int) (code : String) (demand avg : ℚ)
    (w : String) (l : List (String × ℚ)) (hw : w ∉ l.map (fun p => p.1)) :
    ((l.filterMap (fun p => if p.2 < avg then
        some (balanceRow ym code demand avg p) else none)).filter
      (fun r => r.warehouse == w)) = [] := by
  induction l with
  | nil => rfl
  | cons q t ih =>
      simp only [List.map_cons, List.mem_cons, not_or] at hw
      obtain ⟨hw1, hw2⟩ := hw
      by_cases hq : q.2 < avg
      · simp only [List.filterMap_cons, if_pos hq]
        rw [List.filter_cons_of_neg]
        · exact ih hw2
        · simp only [balanceRow, beq_iff_eq]
          exact fun h => hw1 h.symm
      · simp only [List.filterMap_cons, if_neg hq]
        exact ih hw2

theorem balance_filter_eq (ym : Int) (code : String) (demand avg : ℚ)
    (l : List (String × ℚ)) (p : String × ℚ)
    (hnd : (l.map (fun p => p.1)).Nodup) (hp : p ∈ l) :
    ((l.filterMap (fun p => if p.2 < avg then
        some (balanceRow ym code demand avg p) else none)).filter
      (fun r => r.warehouse == p.1))
      = if p.2 < avg then [balanceRow ym code demand avg p] else [] := by
  induction l with
  | nil => cases hp
  | cons q t ih =>
      simp only [List.map_cons, List.nodup_cons] at hnd
      obtain ⟨hq1, hnd2⟩ := hnd
      rcases List.mem_cons.mp hp with hpq | hpt
      · subst hpq
        by_cases hlt : p.2 < avg
        · simp only [List.filterMap_cons, if_pos hlt]
          rw [List.filter_cons_of_pos, balance_filter_not_mem ym code demand
            avg p.1 t (by simpa using hq1)]
          simp [balanceRow]
        · simp only [List.filterMap_cons, if_neg hlt]
          rw [balance_filter_not_mem ym code demand avg p.1 t
            (by simpa using hq1)]
      · have hqp : q.1 ≠ p.1 := by
          intro h
          apply hq1
          rw [h]
          exact List.mem_map.mpr ⟨p, hpt, rfl⟩
        by_cases hlt : q.2 < avg
        · simp only [List.filterMap_cons, if_pos hlt]
          rw [List.filter_cons_of_neg]
          · exact ih hnd2 hpt
          · simp only [balanceRow, beq_iff_eq]
            exact hqp
        · simp only [List.filterMap_cons, if_neg hlt]
          exact ih hnd2 hpt

/-- C8: when the current total stock already meets the required total, the
balancing pass emits exactly one row for each warehouse whose stock is
strictly below the even share required_total / warehouse_count - that row
tops the warehouse up to the even share - and emits nothing for any
warehouse at or above the even share. -/
theorem shipGroup_balancing
    (coverage : ℚ) (ym : Int) (code : String) (demand : ℚ)
    (pstocks : List (String × ℚ))
    (hne : pstocks ≠ [])
    (hnd : (pstocks.map (fun p => p.1)).Nodup)
    (hge : ¬ (pstocks.map (fun p => p.2)).sum < demand * coverage) :
    (∀ p ∈ pstocks,
        (shipGroup coverage ym code demand pstocks).filter
            (fun r => r.warehouse == p.1)
          = if p.2 < demand * coverage / ((pstocks.length : Int) : ℚ)
            then [balanceRow ym code demand
                (demand * coverage / ((pstocks.length : Int) : ℚ)) p]
            else [])
    ∧ ∀ r ∈ shipGroup coverage ym code demand pstocks,
        ∃ p ∈ pstocks, r.warehouse = p.1
          ∧ p.2 < demand * coverage / ((pstocks.length : Int) : ℚ)
          ∧ r.shipment
              = demand * coverage / ((pstocks.length : Int) : ℚ) - p.2
          ∧ r.required_stock
              = demand * coverage / ((pstocks.length : Int) : ℚ) := by
  have hrw2 : shipGroup coverage ym code demand pstocks
      = pstocks.filterMap (fun p =>
          if p.2 < demand * coverage / ((pstocks.length : Int) : ℚ) then
            some (balanceRow ym code demand
              (demand * coverage / ((pstocks.length : Int) : ℚ)) p)
          else none) := by
    rw [shipGroup_eq_balance coverage ym code demand pstocks hne hge]
    rfl
  constructor
  · intro p hp
    rw [hrw2]
    exact balance_filter_eq ym code demand _ pstocks p hnd hp
  · intro r hr
    rw [hrw2] at hr
    rcases List.mem_filterMap.mp hr with ⟨p, hp, hcond⟩
    by_cases hlt : p.2 < demand * coverage / ((pstocks.length : Int) : ℚ)
    · rw [if_pos hlt] at hcond
      have hre := Option.some.inj hcond
      exact ⟨p, hp, by rw [← hre]; exact rfl, hlt, by rw [← hre]; exact rfl,
        by rw [← hre]; exact rfl⟩
    · rw [if_neg hlt] at hcond
      cases hcond

/-- Two-warehouse stock distribution of the spec's scenario C. -/
def scStocks : List (String × ℚ) := [("W1", 30), ("W2", 70)]

/-- Witness for C1 at scenario C: stocks 30 and 70, demand 100, coverage 1.5
(required 150, shortfall 50, proportional shipments 15 and 35). -/
theorem shipGroup_shortfall_witness :
    scStocks ≠ []
    ∧ (∀ p ∈ scStocks, 0 ≤ p.2)
    ∧ (scStocks.map (fun p => p.2)).sum < 100 * (3 / 2)
    ∧ (((shipGroup (3 / 2) 0 "P" 100 scStocks).map (fun r => r.shipment)).sum
        = 100 * (3 / 2) - (scStocks.map (fun p => p.2)).sum
      ∧ (0 < (scStocks.map (fun p => p.2)).sum →
          (∀ r ∈ shipGroup (3 / 2) 0 "P" 100 scStocks,
              r.shipment = (100 * (3 / 2)
                  - (scStocks.map (fun p => p.2)).sum) * r.current_stock
                / (scStocks.map (fun p => p.2)).sum)
          ∧ ∀ p ∈ scStocks, 0 < p.2 →
              ∃ r ∈ shipGroup (3 / 2) 0 "P" 100 scStocks,
                r.warehouse = p.1 ∧ r.current_stock = p.2
                ∧ r.shipment = (100 * (3 / 2)
                    - (scStocks.map (fun p2 => p2.2)).sum) * p.2
                  / (scStocks.map (fun p2 => p2.2)).sum)
      ∧ ((scStocks.map (fun p => p.2)).sum = 0 →
          (shipGroup (3 / 2) 0 "P" 100 scStocks).map
              (fun r => (r.warehouse, r.shipment))
            = scStocks.map (fun p =>
                (p.1, 100 * (3 / 2) / ((scStocks.length : Int) : ℚ))))) :=
  ⟨by simp [scStocks], by norm_num [scStocks], by norm_num [scStocks],
   shipGroup_shortfall_conservation (3 / 2) 0 "P" 100 scStocks
     (by simp [scStocks]) (by norm_num [scStocks]) (by norm_num [scStocks])⟩

/-- Two-warehouse stock distribution exercising the balancing pass. -/
def bpStocks : List (String × ℚ) := [("w1", 1), ("w2", 9)]

/-- Witness for C8 at a concrete input: stocks 1 and 9, demand 4, coverage 1
(current 10 at or above required 4; even share 2; only w1 is topped up,
by 1). -/
theorem shipGroup_balancing_witness :
    bpStocks ≠ []
    ∧ (bpStocks.map (fun p => p.1)).Nodup
    ∧ ¬ (bpStocks.map (fun p => p.2)).sum < 4 * 1
    ∧ ((∀ p ∈ bpStocks,
          (shipGroup 1 0 "Q" 4 bpStocks).filter
              (fun r => r.warehouse == p.1)
            = if p.2 < 4 * 1 / ((bpStocks.length : Int) : ℚ)
              then [balanceRow 0 "Q" 4
                  (4 * 1 / ((bpStocks.length : Int) : ℚ)) p]
              else [])
      ∧ ∀ r ∈ shipGroup 1 0 "Q" 4 bpStocks,
          ∃ p ∈ bpStocks, r.warehouse = p.1
            ∧ p.2 < 4 * 1 / ((bpStocks.length : Int) : ℚ)
            ∧ r.shipment = 4 * 1 / ((bpStocks.length : Int) : ℚ) - p.2
            ∧ r.required_stock = 4 * 1 / ((bpStocks.length : Int) : ℚ)) :=
  ⟨by simp [bpStocks], by simp [bpStocks], by norm_num [bpStocks],
   shipGroup_balancing 1 0 "Q" 4 bpStocks (by simp [bpStocks])
     (by simp [bpStocks]) (by norm_num [bpStocks])⟩

/-
Model selection (C3, C10).
-/

theorem foldl_pick_mem {α : Type} (c : α → α → Prop) [DecidableRel c]
    (l : List α) : ∀ a,
      (l.foldl (fun best x => if c best x then x else best) a) ∈ a :: l := by
  induction l with
  | nil => intro a; simp
  | cons x t ih =>
      intro a
      simp only [List.foldl_cons]
      by_cases h : c a x
      · rw [if_pos h]
        exact List.mem_cons_of_mem a (ih x)
      · rw [if_neg h]
        rcases List.mem_cons.mp (ih a) with h1 | h1
        · rw [h1]; exact List.mem_cons_self a _
        · exact List.mem_cons_of_mem a (List.mem_cons_of_mem x h1)

theorem minBy_mem (f : String × EvalResult → ERat) (a : String × EvalResult)
    (l : List (String × EvalResult)) : minBy f a l ∈ a :: l :=
  foldl_pick_mem (fun best x => f x < f best) l a

theorem maxBy_mem (f : String × EvalResult → ERat) (a : String × EvalResult)
    (l : List (String × EvalResult)) : maxBy f a l ∈ a :: l :=
  foldl_pick_mem (fun best x => f best < f x) l a

theorem minBy_le (f : String × EvalResult → ERat)
    (l : List (String × EvalResult)) : ∀ a, ∀ x ∈ a :: l,
      f (minBy f a l) ≤ f x := by
  unfold minBy
  induction l with
  | nil =>
      intro a x hx
      rcases List.mem_cons.mp hx with rfl | hx2
      · simp
      · cases hx2
  | cons y t ih =>
      intro a x hx
      simp only [List.foldl_cons]
      have ha2a : f (if f y < f a then y else a) ≤ f a := by
        by_cases h : f y < f a
        · rw [if_pos h]; exact le_of_lt h
        · rw [if_neg h]
      have ha2y : f (if f y < f a then y else a) ≤ f y := by
        by_cases h : f y < f a
        · rw [if_pos h]
        · rw [if_neg h]; exact not_lt.mp h
      have hres : f (t.foldl (fun best x => if f x < f best then x else best)
          (if f y < f a then y else a))
          ≤ f (if f y < f a then y else a) :=
        ih (if f y < f a then y else a) _
          (List.mem_cons_self _ _)
      rcases List.mem_cons.mp hx with rfl | hx2
      · exact le_trans hres ha2a
      · rcases List.mem_cons.mp hx2 with rfl | hx3
        · exact le_trans hres ha2y
        · exact ih (if f y < f a then y else a) x
            (List.mem_cons_of_mem _ hx3)

theorem maxBy_ge (f : String × EvalResult → ERat)
    (l : List (String × EvalResult)) : ∀ a, ∀ x ∈ a :: l,
      f x ≤ f (maxBy f a l) := by
  unfold maxBy
  induction l with
  | nil =>
      intro a x hx
      rcases List.mem_cons.mp hx with rfl | hx2
      · simp
      · cases hx2
  | cons y t ih =>
      intro a x hx
      simp only [List.foldl_cons]
      have ha2a : f a ≤ f (if f a < f y then y else a) := by
        by_cases h : f a < f y
        · rw [if_pos h]; exact le_of_lt h
        · rw [if_neg h]
      have ha2y : f y ≤ f (if f a < f y then y else a) := by
        by_cases h : f a < f y
        · rw [if_pos h]
        · rw [if_neg h]; exact not_lt.mp h
      have hres : f (if f a < f y then y else a)
          ≤ f (t.foldl (fun best x => if f best < f x then x else best)
            (if f a < f y then y else a)) :=
        ih (if f a < f y then y else a) _
          (List.mem_cons_self _ _)
      rcases List.mem_cons.mp hx with rfl | hx2
      · exact le_trans ha2a hres
      · rcases List.mem_cons.mp hx2 with rfl | hx3
        · exact le_trans ha2y hres
        · exact ih (if f a < f y then y else a) x
            (List.mem_cons_of_mem _ hx3)

/-- Underscore-terminated literal prefixes between underscore-free strings:
the prefix test that select_best_model runs on store keys identifies the
product part exactly when product codes contain no underscore. -/
theorem uscore_prefix_iff (a : List Char) : ∀ (b m : List Char),
    '_' ∉ a → '_' ∉ b → ((a ++ ['_']) <+: (b ++ '_' :: m) ↔ a = b) := by
  induction a with
  | nil =>
      intro b m _ hb
      cases b with
      | nil => simp [List.cons_prefix_cons]
      | cons d b2 =>
          simp only [List.nil_append, List.cons_append]
          constructor
          · intro h
            rcases List.cons_prefix_cons.mp h with ⟨h1, _⟩
            exact absurd (by rw [← h1]; exact List.mem_cons_self '_' b2) hb
          · intro h
            cases h
  | cons c a2 iha =>
      intro b m ha hb
      cases b with
      | nil =>
          simp only [List.cons_append, List.nil_append]
          constructor
          · intro h
            rcases List.cons_prefix_cons.mp h with ⟨h1, _⟩
            apply absurd _ ha
            rw [h1]
            exact List.mem_cons_self '_' a2
          · intro h
            cases h
      | cons d b2 =>
          simp only [List.cons_append]
          rw [List.cons_prefix_cons]
          have ha2 : '_' ∉ a2 := fun hh => ha (List.mem_cons_of_mem c hh)
          have hb2 : '_' ∉ b2 := fun hh => hb (List.mem_cons_of_mem d hh)
          rw [iha b2 m ha2 hb2]
          simp only [List.cons.injEq]

/-- The store-key prefix test decides equality of the product part when
both product codes are underscore-free. -/
theorem key_prefix_iff (code c2 m2 : String) (hc : '_' ∉ code.data)
    (hc2 : '_' ∉ c2.data) :
    ((code ++ "_").data.isPrefixOf ((c2 ++ "_" ++ m2).data) = true)
      ↔ c2 = code := by
  rw [List.isPrefixOf_iff_prefix]
  have h1 : (code ++ "_").data = code.data ++ ['_'] := by
    rw [String.data_append]
  have h2 : (c2 ++ "_" ++ m2).data = c2.data ++ '_' :: m2.data := by
    rw [String.data_append, String.data_append]
    simp
  rw [h1, h2, uscore_prefix_iff code.data c2.data m2.data hc hc2]
  constructor
  · intro h
    cases code
    cases c2
    simp only at h
    rw [h]
  · intro h
    rw [h]

/-- A store is well formed when every entry was produced by evaluate_model
from an underscore-free product code: its key is the product code, an
underscore, and the model name. -/
def storeWF (store : EvalStore) : Prop :=
  ∀ e ∈ store, '_' ∉ e.2.unified_code.data
    ∧ e.1 = e.2.unified_code ++ "_" ++ e.2.model_name

instance storeWF_decidable (store : EvalStore) : Decidable (storeWF store) := by
  unfold storeWF
  infer_instance

/-- On a well-formed store the prefix scan of select_best_model selects
exactly the entries of the queried product. -/
theorem filter_prefix_eq (store : EvalStore) (code : String)
    (hwf : storeWF store) (hc : '_' ∉ code.data) :
    store.filter (fun e => (code ++ "_").data.isPrefixOf e.1.data)
      = store.filter (fun e => e.2.unified_code == code) := by
  apply List.filter_congr
  intro e he
  obtain ⟨hu, hk⟩ := hwf e he
  rw [hk]
  rw [Bool.eq_iff_iff]
  rw [beq_iff_eq]
  exact key_prefix_iff code e.2.unified_code e.2.model_name hc hu

theorem getMetricOr_eq_metricOf (r : EvalResult) (metric : String) (d : ERat)
    (hm : metric = "mae" ∨ metric = "rmse" ∨ metric = "mape"
      ∨ metric = "r2") :
    getMetricOr r metric d = metricOf r metric := by
  rcases hm with h | h | h | h <;> subst h <;> rfl

/-- Unfolding of select_best_model in terms of the prefix filter and the
min/max scans. -/
theorem selectBestModel_eq (store : EvalStore) (code metric : String) :
    selectBestModel store code metric
      = match store.filter
          (fun e => (code ++ "_").data.isPrefixOf e.1.data) with
        | [] => none
        | e :: rest =>
            some ((if metric = "mae" ∨ metric = "rmse" ∨ metric = "mape" then
                minBy (fun x => getMetricOr x.2 metric
                  ((⊤ : WithTop ℚ) : WithBot (WithTop ℚ))) e rest
              else
                maxBy (fun x => getMetricOr x.2 metric ⊥) e rest).2.model_name)
      := rfl

/-- C3 (for stores of underscore-free product codes, the regime in which the
key scan is exact; the underscore collision is treated separately): with no
stored result for the product, select_best_model returns none; otherwise it
returns the model name of a stored entry of that product whose metric value
is minimal (for mae, rmse, mape) or maximal (for r2) among the product's
stored results. -/
theorem selectBestModel_spec (store : EvalStore) (code metric : String)
    (hwf : storeWF store) (hc : '_' ∉ code.data)
    (hm : metric = "mae" ∨ metric = "rmse" ∨ metric = "mape"
      ∨ metric = "r2") :
    ((∀ e ∈ store, e.2.unified_code ≠ code) →
        selectBestModel store code metric = none)
    ∧ ∀ e0 ∈ store, e0.2.unified_code = code →
        ∃ e ∈ store, e.2.unified_code = code
          ∧ selectBestModel store code metric = some e.2.model_name
          ∧ ∀ e2 ∈ store, e2.2.unified_code = code →
              ((metric = "mae" ∨ metric = "rmse" ∨ metric = "mape") →
                metricOf e.2 metric ≤ metricOf e2.2 metric)
              ∧ (metric = "r2" →
                metricOf e2.2 metric ≤ metricOf e.2 metric) := by
  have heq : selectBestModel store code metric
      = match store.filter (fun e => e.2.unified_code == code) with
        | [] => none
        | e :: rest =>
            some ((if metric = "mae" ∨ metric = "rmse" ∨ metric = "mape" then
                minBy (fun x => getMetricOr x.2 metric
                  ((⊤ : WithTop ℚ) : WithBot (WithTop ℚ))) e rest
              else
                maxBy (fun x => getMetricOr x.2 metric ⊥) e rest).2.model_name)
      := by
    rw [selectBestModel_eq, filter_prefix_eq store code hwf hc]
  constructor
  · intro hnone
    have hnil : store.filter (fun e => e.2.unified_code == code) = [] := by
      apply List.filter_eq_nil_iff.mpr
      intro e he
      simp [hnone e he]
    rw [heq, hnil]
  · intro e0 he0 hcode0
    have hmem0 : e0 ∈ store.filter (fun e => e.2.unified_code == code) :=
      List.mem_filter.mpr ⟨he0, by simp [hcode0]⟩
    cases hflc : store.filter (fun e => e.2.unified_code == code) with
    | nil => rw [hflc] at hmem0; cases hmem0
    | cons e1 rest =>
        rw [hflc] at heq
        have heq2 : selectBestModel store code metric
            = some ((if metric = "mae" ∨ metric = "rmse" ∨ metric = "mape"
                then minBy (fun x => getMetricOr x.2 metric
                  ((⊤ : WithTop ℚ) : WithBot (WithTop ℚ))) e1 rest
                else maxBy (fun x => getMetricOr x.2 metric ⊥)
                  e1 rest).2.model_name) := by
          rw [heq]
        clear heq
        by_cases herr : metric = "mae" ∨ metric = "rmse" ∨ metric = "mape"
        · rw [if_pos herr] at heq2
          have hbestmem : minBy (fun x => getMetricOr x.2 metric
              ((⊤ : WithTop ℚ) : WithBot (WithTop ℚ))) e1 rest
                ∈ e1 :: rest := minBy_mem _ _ _
          rw [← hflc] at hbestmem
          have hbest2 := List.mem_filter.mp hbestmem
          refine ⟨_, hbest2.1, by simpa using hbest2.2, heq2, ?_⟩
          intro e2 he2 hcode2
          have hmem2 : e2 ∈ e1 :: rest := by
            rw [← hflc]
            exact List.mem_filter.mpr ⟨he2, by simp [hcode2]⟩
          have hle := minBy_le (fun x => getMetricOr x.2 metric
            ((⊤ : WithTop ℚ) : WithBot (WithTop ℚ))) rest e1 e2 hmem2
          simp only [getMetricOr_eq_metricOf _ _ _ hm] at hle ⊢
          refine ⟨fun _ => hle, fun hr2 => ?_⟩
          rcases herr with h | h | h <;> rw [h] at hr2 <;> exact absurd hr2 (by decide)
        · rw [if_neg herr] at heq2
          have hr2 : metric = "r2" := by
            rcases hm with h | h | h | h
            · exact absurd (Or.inl h) herr
            · exact absurd (Or.inr (Or.inl h)) herr
            · exact absurd (Or.inr (Or.inr h)) herr
            · exact h
          have hbestmem : maxBy (fun x => getMetricOr x.2 metric ⊥) e1 rest
              ∈ e1 :: rest := maxBy_mem _ _ _
          rw [← hflc] at hbestmem
          have hbest2 := List.mem_filter.mp hbestmem
          refine ⟨_, hbest2.1, by simpa using hbest2.2, heq2, ?_⟩
          intro e2 he2 hcode2
          have hmem2 : e2 ∈ e1 :: rest := by
            rw [← hflc]
            exact List.mem_filter.mpr ⟨he2, by simp [hcode2]⟩
          have hge := maxBy_ge (fun x => getMetricOr x.2 metric ⊥)
            rest e1 e2 hmem2
          simp only [getMetricOr_eq_metricOf _ _ _ hm] at hge ⊢
          refine ⟨fun herr2 => ?_, fun _ => hge⟩
          rw [hr2] at herr2
          rcases herr2 with h | h | h <;> exact absurd h (by decide)

/-- The rational 8.5 of the spec's scenario D, written as an explicit
normalized numerator/denominator pair so that concrete evaluation reduces. -/
def mape85 : ℚ := ⟨17, 2, by decide, by decide⟩

theorem mape85_eq : mape85 = 17 / 2 := by
  unfold mape85
  rw [Rat.mk'_eq_divInt, Rat.divInt_eq_div]
  norm_num

/-- Scenario D evaluation result of model A (mape 12). -/
def resD_A : EvalResult :=
  ⟨ERat.ofRat 1, ERat.ofRat 1, ERat.ofRat 12, ERat.ofRat 0, "A", "P"⟩

/-- Scenario D evaluation result of model B (mape 8.5). -/
def resD_B : EvalResult :=
  ⟨ERat.ofRat 1, ERat.ofRat 1, ERat.ofRat mape85, ERat.ofRat 0, "B", "P"⟩

/-- Scenario D store: models A and B evaluated for the same product P. -/
def demoStoreD : EvalStore := [("P_A", resD_A), ("P_B", resD_B)]

/-- Witness for C3 at the spec's scenario D: model A with mape 12 and model B
with mape 8.5 for product P; select_best_model picks B, and the general
theorem instantiates to it. -/
theorem selectBestModel_spec_witness :
    storeWF demoStoreD
    ∧ '_' ∉ "P".data
    ∧ ("mape" = "mae" ∨ "mape" = "rmse" ∨ "mape" = "mape"
        ∨ "mape" = "r2")
    ∧ selectBestModel demoStoreD "P" "mape" = some "B"
    ∧ (∃ e ∈ demoStoreD, e.2.unified_code = "P"
        ∧ selectBestModel demoStoreD "P" "mape" = some e.2.model_name
        ∧ ∀ e2 ∈ demoStoreD, e2.2.unified_code = "P" →
            (("mape" = "mae" ∨ "mape" = "rmse" ∨ "mape" = "mape") →
              metricOf e.2 "mape" ≤ metricOf e2.2 "mape")
            ∧ ("mape" = "r2" →
              metricOf e2.2 "mape" ≤ metricOf e.2 "mape")) :=
  ⟨by decide, by decide, by decide, by decide,
   (selectBestModel_spec demoStoreD "P" "mape" (by decide) (by decide)
     (by decide)).2 ("P_A", resD_A) (by decide) (by decide)⟩

/-- Result stored for product A under model m1 (mape 5). -/
def xRes1 : EvalResult :=
  ⟨ERat.ofRat 1, ERat.ofRat 1, ERat.ofRat 5, ERat.ofRat 0, "m1", "A"⟩

/-- Result stored for the distinct product A_B under model m2 (mape 1). -/
def xRes2 : EvalResult :=
  ⟨ERat.ofRat 1, ERat.ofRat 1, ERat.ofRat 1, ERat.ofRat 0, "m2", "A_B"⟩

/-- C10 counterexample: with a result stored for the distinct product A_B,
select_best_model for product A returns m2 - a model never evaluated for A -
whereas without that entry it returns m1: the prefix scan lets one product's
stored results influence another product's selection when a product key plus
underscore is a prefix of another's keys. -/
theorem selection_isolation_counterexample :
    selectBestModel [("A_B_m2", xRes2), ("A_m1", xRes1)] "A" "mape"
        = some "m2"
    ∧ selectBestModel [("A_m1", xRes1)] "A" "mape" = some "m1"
    ∧ xRes2.unified_code = "A_B"
    ∧ xRes2.unified_code ≠ "A" :=
  ⟨by decide, by decide, by decide, by decide⟩

/-- C10 as amended: on well-formed stores whose product codes are
underscore-free, selection for a product depends only on that product's own
stored results - filtering the store down to the product's entries does not
change the outcome of select_best_model. -/
theorem selectBestModel_isolation (store : EvalStore) (p metric : String)
    (hwf : storeWF store) (hp : '_' ∉ p.data) :
    selectBestModel store p metric
      = selectBestModel (store.filter (fun e => e.2.unified_code == p))
          p metric := by
  have h1 : store.filter (fun e => (p ++ "_").data.isPrefixOf e.1.data)
      = store.filter (fun e => e.2.unified_code == p) :=
    filter_prefix_eq store p hwf hp
  have h2 : (store.filter (fun e => e.2.unified_code == p)).filter
      (fun e => (p ++ "_").data.isPrefixOf e.1.data)
      = store.filter (fun e => e.2.unified_code == p) := by
    apply List.filter_eq_self.mpr
    intro e he
    have hes : e ∈ store := (List.mem_filter.mp he).1
    have hec : e.2.unified_code = p := by
      simpa using (List.mem_filter.mp he).2
    obtain ⟨hu, hk⟩ := hwf e hes
    rw [hk, hec]
    rw [List.isPrefixOf_iff_prefix]
    have hdata : (p ++ "_" ++ e.2.model_name).data
        = (p ++ "_").data ++ e.2.model_name.data := by
      rw [String.data_append]
    rw [hdata]
    exact List.prefix_append _ _
  rw [selectBestModel_eq, selectBestModel_eq, h1, h2]

/-- Evaluation result of product A under model m1. -/
def isoRes1 : EvalResult :=
  ⟨ERat.ofRat 3, ERat.ofRat 3, ERat.ofRat 9, ERat.ofRat 0, "m1", "A"⟩

/-- Evaluation result of product A under model m2. -/
def isoRes2 : EvalResult :=
  ⟨ERat.ofRat 2, ERat.ofRat 2, ERat.ofRat 4, ERat.ofRat 0, "m2", "A"⟩

/-- Evaluation result of product B under model m3. -/
def isoRes3 : EvalResult :=
  ⟨ERat.ofRat 1, ERat.ofRat 1, ERat.ofRat 1, ERat.ofRat 0, "m3", "B"⟩

/-- A well-formed store with two underscore-free products. -/
def isoStore : EvalStore :=
  [("A_m1", isoRes1), ("A_m2", isoRes2), ("B_m3", isoRes3)]

/-- Witness for the amended C10 at a concrete well-formed store. -/
theorem selectBestModel_isolation_witness :
    storeWF isoStore
    ∧ '_' ∉ "A".data
    ∧ selectBestModel isoStore "A" "mape"
        = selectBestModel (isoStore.filter
            (fun e => e.2.unified_code == "A")) "A" "mape" :=
  ⟨by decide, by decide,
   selectBestModel_isolation isoStore "A" "mape" (by decide) (by decide)⟩

/-
Forecast ledger (C9).
-/

/-- Two saved snapshots: model prophet on marketplace wb, and model prophet
on marketplace ozon. -/
def c9Files : List (String × List HRow) :=
  [("wb_prophet_20240101_120000.csv", [⟨1, "X", 3⟩]),
   ("ozon_prophet_20240202_130000.csv", [⟨2, "X", 4⟩])]

/-- C9: the marketplace filter works alone (first conjunct), but as soon as a
model filter is also given the built glob pattern is replaced outright by the
model pattern, so the marketplace filter is dropped: the query for
marketplace wb and model prophet returns the ozon snapshot's rows too,
contradicting the function's own documented filter semantics. -/
theorem history_filter_overwrite_bug :
    (getForecastHistory c9Files (some "wb") none none).map
        (fun r => r.marketplace) = ["wb"]
    ∧ (getForecastHistory c9Files none (some "prophet") none).map
        (fun r => r.marketplace) = ["wb", "ozon"]
    ∧ (getForecastHistory c9Files (some "wb") (some "prophet") none).map
        (fun r => r.marketplace) = ["wb", "ozon"]
    ∧ ∃ r ∈ getForecastHistory c9Files (some "wb") (some "prophet") none,
        r.marketplace = "ozon" ∧ r.model_name = "prophet"
        ∧ r.forecast_date = "20240202_130000" :=
  ⟨by decide, by decide, by decide,
   ⟨⟨2, "X", 4, "ozon", "prophet", "20240202_130000"⟩, by decide, by decide,
    by decide, by decide⟩⟩
